import Mathlib

/-!
# Verification of the RAG-notes vector store and search controller

Shallow embedding of the JavaScript `VectorStore` class
(`backend/services/llmService.js`, FAISS vector store section) and of the
search controller (`searchController.js`: `hybridSearch`, `reindexAll`).

Modelling conventions:
* JavaScript `Map` objects are modelled as association lists in insertion
  order: `Map.set` on a fresh key appends, on an existing key it updates the
  value in place (keeping the position), `Map.delete` removes the (unique)
  entry, and iteration follows the list order.
* Plain JS metadata objects are modelled the same way (`Meta` below); the
  object spread `\x7b ...a, ...b \x7d` is `objSpread`, and writing one key is
  `setEntry`.
* IEEE floats are modelled by an arbitrary linear ordered field `α`, with
  `Math.sqrt` passed in as an explicit function `sqrt : α → α` (the concrete
  instantiations below use `ℝ` with `Real.sqrt`, or `ℚ` with a stand-in when
  the function under test never relies on square-root identities).
* `async` functions that only await their own synchronous work are modelled
  as pure state-passing functions; a thrown `Error` is `Except.error`, and
  whether `save()` was invoked is returned as an explicit `Bool` where a
  claim is about persistence effects.
* Wall-clock timestamps (`new Date().toISOString()`) enter as an explicit
  `now : String` argument.
-/

namespace RAGNotes

/-! ## Association-list model of JS `Map` / plain objects -/

/-- `Map.get k` / property read: the value of the first entry with key `k`. -/
def getEntry {β : Type} (l : List (String × β)) (k : String) : Option β :=
  (l.find? (fun p => p.1 = k)).map Prod.snd

/-- `Map.set k v` / property write: update in place when the key exists,
append otherwise (JS insertion-order semantics). -/
def setEntry {β : Type} (l : List (String × β)) (k : String) (v : β) :
    List (String × β) :=
  match l with
  | [] => [(k, v)]
  | (k', v') :: t => if k' = k then (k, v) :: t else (k', v') :: setEntry t k v

/-- `Map.delete k`: remove the first entry with key `k` (keys are unique in
every map the store builds). -/
def delEntry {β : Type} (l : List (String × β)) (k : String) :
    List (String × β) :=
  match l with
  | [] => []
  | (k', v') :: t => if k' = k then t else (k', v') :: delEntry t k

/-- `Map.has k`. -/
def hasKey {β : Type} (l : List (String × β)) (k : String) : Bool :=
  (getEntry l k).isSome

/-- JS metadata object: string-keyed, string-valued, in property order. -/
abbrev Meta : Type := List (String × String)

/-- Object spread `\x7b ...a, ...b \x7d`: write every entry of `b` into `a`
in order. -/
def objSpread (a b : Meta) : Meta :=
  b.foldl (fun acc p => setEntry acc p.1 p.2) a

/-! ## The `VectorStore` state -/

/-- State of the `VectorStore` class: the two `Map`s plus the configuration
fields the claims mention.  (The FAISS index maps `idToIndex`/`indexToId`
are dead bookkeeping for the claims at hand and are omitted.) -/
structure Store (α : Type) where
  vectors : List (String × List α)
  metadata : List (String × Meta)
  dimension : ℕ
  topK : ℕ
  deriving DecidableEq

/-- A freshly constructed store (empty maps). -/
def freshStore {α : Type} (dimension topK : ℕ) : Store α :=
  ⟨[], [], dimension, topK⟩

instance {ε β : Type} [DecidableEq ε] [DecidableEq β] : DecidableEq (Except ε β) :=
  fun x y =>
    match x, y with
    | .ok a, .ok b => if h : a = b then isTrue (by rw [h]) else isFalse (by simp [h])
    | .error a, .error b => if h : a = b then isTrue (by rw [h]) else isFalse (by simp [h])
    | .ok _, .error _ => isFalse (by simp)
    | .error _, .ok _ => isFalse (by simp)

variable {α : Type} [Zero α]

/-- The dimension-adjustment step of `addVector`/`updateVector`: pad a short
vector with zeros, truncate a long one. -/
def adjustDim (dim : ℕ) (v : List α) : List α :=
  if v.length = dim then v
  else if v.length < dim then v ++ List.replicate (dim - v.length) 0
  else v.take dim

namespace Store

/-- `addVector(id, vector, meta)`.  `vector : Option _` distinguishes a
missing (`null`/`undefined`) argument from an empty array: in JS
`!vector` is true only for the former, while `!id` is also true for the
empty string.  On success the method always persists (`save()`), so no
persistence flag is needed; on failure it throws before touching state. -/
def addVector (s : Store α) (id : String) (vector : Option (List α))
    (meta : Meta) (now : String) : Except String (Store α) :=
  if id = "" ∨ vector.isNone then .error "ID and vector are required"
  else
    let pv := adjustDim s.dimension (vector.getD [])
    .ok { s with
      vectors := setEntry s.vectors id pv,
      metadata := setEntry s.metadata id (setEntry meta "addedAt" now) }

/-- `removeVector(id)`: returns (returned boolean, new state, whether
`save()` ran).  Note the code deletes from `metadata` unconditionally but
persists only when the `vectors` entry existed. -/
def removeVector (s : Store α) (id : String) : Bool × Store α × Bool :=
  let deleted := hasKey s.vectors id
  (deleted,
   { s with vectors := delEntry s.vectors id,
            metadata := delEntry s.metadata id },
   deleted)

/-- `updateVector(id, vector, meta)`: falls back to `addVector` for an
unknown id; otherwise overwrites the vector and spreads the new metadata
over the existing one, stamping `updatedAt`. -/
def updateVector (s : Store α) (id : String) (vector : List α)
    (meta : Meta) (now : String) : Except String (Store α) :=
  if hasKey s.vectors id then
    let pv := adjustDim s.dimension vector
    let existing := (getEntry s.metadata id).getD []
    .ok { s with
      vectors := setEntry s.vectors id pv,
      metadata :=
        setEntry s.metadata id (setEntry (objSpread existing meta) "updatedAt" now) }
  else addVector s id (some vector) meta now

/-- `getVector(id)` (returns `null` for a missing id). -/
def getVector (s : Store α) (id : String) : Option (List α) :=
  getEntry s.vectors id

/-- `clear()`. -/
def clear (s : Store α) : Store α :=
  { s with vectors := [], metadata := [] }

end Store

/-- The JSON snapshot written by `save()`. -/
structure Snapshot (α : Type) where
  dimension : ℕ
  vectors : List (String × List α)
  metadata : List (String × Meta)
  savedAt : String
  deriving DecidableEq

/-- `save()`: serialise the full state.  (`Object.fromEntries` /
`Object.entries` round-trip association lists of non-numeric note ids
unchanged, so the snapshot simply carries the lists.) -/
def Store.save (s : Store α) (now : String) : Snapshot α :=
  ⟨s.dimension, s.vectors, s.metadata, now⟩

/-- Outcome of reading the snapshot file inside `load()`. -/
inductive ReadOutcome (α : Type) where
  | absent
  | failure (msg : String)
  | content (snap : Snapshot α)

/-- `load()`: an `ENOENT` (absent file) keeps the current — for a fresh
store, empty — maps; any other failure propagates; otherwise both maps are
replaced by the snapshot's.  The stored `dimension` is only warned about,
never applied, and vectors are taken verbatim. -/
def Store.load (s : Store α) (r : ReadOutcome α) : Except String (Store α) :=
  match r with
  | .absent => .ok s
  | .failure m => .error m
  | .content snap =>
      .ok { s with vectors := snap.vectors, metadata := snap.metadata }

/-! ## Vector math (`dotProduct`, `normalizeVector`, `cosineSimilarity`) -/

section VectorMath

variable {α : Type} [LinearOrderedField α]

/-- `dotProduct(vecA, vecB)`: sum of pairwise products over the first
`min(length, length)` indices (the 4-way loop unrolling in the source adds
the same terms in the same index order). -/
def dotProduct (a b : List α) : α :=
  (List.zipWith (· * ·) a b).sum

/-- The squared Euclidean magnitude accumulated by `normalizeVector`. -/
def sumSq (v : List α) : α :=
  (v.map (fun x => x * x)).sum

/-- `normalizeVector(vector)`: divide by `Math.sqrt` of the sum of squares,
returning the vector unchanged when the magnitude is zero. -/
def normalizeVector (sqrt : α → α) (v : List α) : List α :=
  if sqrt (sumSq v) = 0 then v else v.map (· / sqrt (sumSq v))

/-- The `dotProduct` accumulator of `cosineSimilarity`'s single loop over
the first `min(length, length)` indices. -/
def pairProdSum (a b : List α) : α :=
  ((a.zip b).map (fun p => p.1 * p.2)).sum

/-- The `normA` accumulator: squares of `vecA`, but only up to the common
length. -/
def pairSqFstSum (a b : List α) : α :=
  ((a.zip b).map (fun p => p.1 * p.1)).sum

/-- The `normB` accumulator: squares of `vecB`, but only up to the common
length. -/
def pairSqSndSum (a b : List α) : α :=
  ((a.zip b).map (fun p => p.2 * p.2)).sum

/-- `cosineSimilarity(vecA, vecB)`: note that the loop runs to
`min(vecA.length, vecB.length)` for the dot product *and both norms*, so
both vectors are effectively truncated to the common length. -/
def cosineSimilarity (sqrt : α → α) (a b : List α) : α :=
  if sqrt (pairSqFstSum a b) = 0 ∨ sqrt (pairSqSndSum a b) = 0 then 0
  else pairProdSum a b / (sqrt (pairSqFstSum a b) * sqrt (pairSqSndSum a b))

/-! ## `search` -/

/-- The `filter` argument of `search`.  `category = none` models an absent
(or empty-string, hence falsy) `filter.category`. -/
structure SearchFilter where
  excludeIds : List String
  category : Option String

/-- One `\x7bid, score, metadata\x7d` entry of a search result. -/
structure SearchResult (α : Type) where
  id : String
  score : α
  metadata : Meta
  deriving DecidableEq

/-- The `filter.category && meta?.category !== filter.category` guard:
with a set (truthy) category the record is kept only when its metadata
category equals it; an absent metadata object or category key
(`undefined`) never equals a set category. -/
def keepByCategory (s : Store α) (f : SearchFilter) (id : String) : Bool :=
  match f.category with
  | some c =>
      decide (((getEntry s.metadata id).bind (fun m => getEntry m "category"))
        = some c)
  | none => true

/-- The candidate list built by `search`'s loop over `this.vectors`, in map
(insertion) order: ids in `filter.excludeIds` are skipped, a set
`filter.category` must equal the record's metadata category, and the score
is the dot product of the normalized query with the normalized stored
vector (the `meta || \x7b\x7d` fallback becomes `getD []`; the source
hoists `normalizeVector(queryVector)` out of the loop, which is pure). -/
def searchCandidates (sqrt : α → α) (s : Store α) (q : List α)
    (f : SearchFilter) : List (SearchResult α) :=
  s.vectors.filterMap fun p =>
    if p.1 ∈ f.excludeIds then none
    else if keepByCategory s f p.1 then
      some ⟨p.1, dotProduct (normalizeVector sqrt q) (normalizeVector sqrt p.2),
        (getEntry s.metadata p.1).getD []⟩
    else none

/-- `const k = topK || this.topK`: `null` and `0` both fall back to the
configured default. -/
def effectiveK (s : Store α) (topK : Option ℕ) : ℕ :=
  match topK with
  | none => s.topK
  | some n => if n = 0 then s.topK else n

/-- The comparator `(a, b) => b.score - a.score`: `a` may come before `b`
iff `a.score ≥ b.score`. -/
def resOrder (a b : SearchResult α) : Prop := b.score ≤ a.score

instance : DecidableRel (@resOrder α _) :=
  fun a b => inferInstanceAs (Decidable (b.score ≤ a.score))

instance : IsTotal (SearchResult α) resOrder :=
  ⟨fun a b => le_total b.score a.score⟩

instance : IsTrans (SearchResult α) resOrder :=
  ⟨fun _ _ _ h1 h2 => le_trans h2 h1⟩

/-- `search(queryVector, topK, filter)`: reject an empty query, score the
candidates, sort descending (JS `Array.prototype.sort` is stable, which
insertion sort with `resOrder` models exactly), and keep the top `k`. -/
def Store.search (sqrt : α → α) (s : Store α) (q : List α)
    (topK : Option ℕ) (f : SearchFilter) :
    Except String (List (SearchResult α)) :=
  if q = [] then .error "Query vector is required"
  else
    .ok ((List.insertionSort resOrder (searchCandidates sqrt s q f)).take
      (effectiveK s topK))

/-! ## `hybridSearch` (searchController.js): the combine-and-rank core -/

/-- One value of the `combinedScores` map. -/
structure HybridEntry (α : Type) where
  id : String
  semanticScore : α
  keywordScore : α
  deriving DecidableEq

/-- `combinedScores.set(e.id, e)`: replace the value of an existing entry in
place, append a fresh one. -/
def mapSet (l : List (HybridEntry α)) (e : HybridEntry α) :
    List (HybridEntry α) :=
  if l.any (fun x => x.id = e.id) then
    l.map fun x => if x.id = e.id then e else x
  else l ++ [e]

/-- `combinedScores.get(id).keywordScore = sc`, or insert a keyword-only
entry with `semanticScore = 0`. -/
def kwUpdate (l : List (HybridEntry α)) (id : String) (sc : α) :
    List (HybridEntry α) :=
  if l.any (fun x => x.id = id) then
    l.map fun x => if x.id = id then ⟨x.id, x.semanticScore, sc⟩ else x
  else l ++ [⟨id, 0, sc⟩]

/-- The semantic `forEach`: `combinedScores.set(id, ⟨id, w·(1 - i/N₁), 0⟩)`
over the ranked semantic list, in order. -/
def hybridSemPhase (sem : List String) (w : α) : List (HybridEntry α) :=
  sem.enum.foldl
    (fun acc p =>
      mapSet acc ⟨p.2, (1 - (p.1 : α) / (sem.length : α)) * w, 0⟩)
    []

/-- The keyword `forEach`: mutate `keywordScore` of an existing entry, or
insert a keyword-only entry. -/
def hybridKwPhase (kw : List String) (w : α)
    (start : List (HybridEntry α)) : List (HybridEntry α) :=
  kw.enum.foldl
    (fun acc p =>
      kwUpdate acc p.2 ((1 - (p.1 : α) / (kw.length : α)) * (1 - w)))
    start

/-- `Map.get(id)` on a list of hybrid entries. -/
def hGet (l : List (HybridEntry α)) (id : String) : Option (HybridEntry α) :=
  l.find? (fun e => e.id = id)

/-- Comparator for the final `(a, b) => b.totalScore - a.totalScore`. -/
def pairOrder (a b : String × α) : Prop := b.2 ≤ a.2

instance : DecidableRel (@pairOrder α _) :=
  fun a b => inferInstanceAs (Decidable (b.2 ≤ a.2))

instance : IsTotal (String × α) pairOrder :=
  ⟨fun a b => le_total b.2 a.2⟩

instance : IsTrans (String × α) pairOrder :=
  ⟨fun _ _ _ h1 h2 => le_trans h2 h1⟩

/-- The pure core of `hybridSearch`: build `combinedScores` from the two
ranked lists, total the two contributions per id, sort by descending total
(stably) and truncate to `limit`. -/
def hybridCombine (sem kw : List String) (w : α) (limit : ℕ) :
    List (String × α) :=
  let scored := (hybridKwPhase kw w (hybridSemPhase sem w)).map
    fun e => (e.id, e.semanticScore + e.keywordScore)
  (List.insertionSort pairOrder scored).take limit

/-- The score an id receives from one ranked list of length `n`, reading
its position `i` as `1 - i/n` scaled by `scale`; `0` when absent. -/
def listContrib (l : List String) (scale : α) (id : String) : α :=
  match l.enum.find? (fun p => p.2 = id) with
  | some p => (1 - (p.1 : α) / (l.length : α)) * scale
  | none => 0

end VectorMath

/-! ## `reindexAll` (searchController.js) -/

section Reindex

variable {α : Type} [Zero α]

/-- `reindexAll`, with the per-note work (embedding generation and the two
database writes) abstracted as `embed : id → Except`: an empty note list
returns early, otherwise the store is cleared and every note is processed
inside its own try/catch, counting `processed`/`errors`.  (The batches of
10 under `Promise.all` run one interpreter at a time, so the counts and the
final id set are those of sequential processing.)  `reindexStep` is the
per-note try/catch body. -/
def reindexStep (embed : String → Except String (List α)) (now : String)
    (acc : ℕ × ℕ × Store α) (id : String) : ℕ × ℕ × Store α :=
  match embed id with
  | .ok e =>
      match Store.addVector acc.2.2 id (some e) [] now with
      | .ok s2 => (acc.1 + 1, acc.2.1, s2)
      | .error _ => (acc.1, acc.2.1 + 1, acc.2.2)
  | .error _ => (acc.1, acc.2.1 + 1, acc.2.2)

def reindexAll (embed : String → Except String (List α))
    (notes : List String) (s : Store α) (now : String) :
    ℕ × ℕ × Store α :=
  if notes.isEmpty then (0, 0, s)
  else notes.foldl (reindexStep embed now) (0, 0, s.clear)

end Reindex

/-! ## Invariant predicates and reachable states -/

section Invariants

variable {α : Type} [Zero α]

/-- Every stored vector has exactly the configured dimension. -/
def DimInv (s : Store α) : Prop :=
  ∀ p ∈ s.vectors, p.2.length = s.dimension

/-- States reachable from a freshly constructed store by the successful
store operations (including a persistence round-trip into a fresh store of
the same configured dimension). -/
inductive Reachable : Store α → Prop where
  | fresh (dimension topK : ℕ) : Reachable (freshStore dimension topK)
  | add {s : Store α} {id vector meta now s'} : Reachable s →
      Store.addVector s id vector meta now = .ok s' → Reachable s'
  | update {s : Store α} {id vector meta now s'} : Reachable s →
      Store.updateVector s id vector meta now = .ok s' → Reachable s'
  | remove {s : Store α} (id : String) : Reachable s →
      Reachable (Store.removeVector s id).2.1
  | clearStep {s : Store α} : Reachable s → Reachable s.clear
  | loadSave {s : Store α} {topK' now s'} : Reachable s →
      Store.load (freshStore s.dimension topK') (.content (s.save now)) = .ok s' →
      Reachable s'

end Invariants

/-! ## Association-list lemmas -/

section AssocLemmas

variable {β : Type}

theorem getEntry_cons (q : String × β) (t : List (String × β)) (k : String) :
    getEntry (q :: t) k = if q.1 = k then some q.2 else getEntry t k := by
  by_cases h : q.1 = k <;> simp [getEntry, List.find?, h]

theorem hasKey_cons (q : String × β) (t : List (String × β)) (k : String) :
    hasKey (q :: t) k = (decide (q.1 = k) || hasKey t k) := by
  by_cases h : q.1 = k <;> simp [hasKey, getEntry_cons, h]

theorem setEntry_cons (q : String × β) (t : List (String × β)) (k : String)
    (v : β) :
    setEntry (q :: t) k v =
      if q.1 = k then (k, v) :: t else q :: setEntry t k v := by
  rcases q with ⟨k', v'⟩
  simp [setEntry]

theorem delEntry_cons (q : String × β) (t : List (String × β)) (k : String) :
    delEntry (q :: t) k = if q.1 = k then t else q :: delEntry t k := by
  rcases q with ⟨k', v'⟩
  simp [delEntry]

theorem getEntry_setEntry_self (l : List (String × β)) (k : String) (v : β) :
    getEntry (setEntry l k v) k = some v := by
  induction l with
  | nil => simp [setEntry, getEntry]
  | cons p t ih =>
      by_cases h : p.1 = k
      · simp [setEntry_cons, h, getEntry_cons]
      · simp [setEntry_cons, h, getEntry_cons, ih]

theorem getEntry_setEntry_ne (l : List (String × β)) {k k' : String} (v : β)
    (h : k' ≠ k) : getEntry (setEntry l k v) k' = getEntry l k' := by
  induction l with
  | nil => simp [setEntry, getEntry, List.find?, Ne.symm h]
  | cons p t ih =>
      by_cases hp : p.1 = k
      · subst hp
        simp [setEntry_cons, getEntry_cons, Ne.symm h, h]
      · simp [setEntry_cons, hp, getEntry_cons, ih]

theorem keys_setEntry (l : List (String × β)) (k : String) (v : β) :
    (setEntry l k v).map Prod.fst =
      if hasKey l k then l.map Prod.fst else l.map Prod.fst ++ [k] := by
  induction l with
  | nil => simp [setEntry, hasKey, getEntry]
  | cons p t ih =>
      by_cases h : p.1 = k
      · simp [setEntry_cons, h, hasKey_cons]
      · by_cases ht : hasKey t k <;>
          simp [setEntry_cons, h, hasKey_cons, ht, ih]

theorem keys_delEntry (l : List (String × β)) (k : String) :
    (delEntry l k).map Prod.fst = (l.map Prod.fst).erase k := by
  induction l with
  | nil => simp [delEntry]
  | cons p t ih =>
      by_cases h : p.1 = k
      · simp [delEntry_cons, h, List.erase_cons]
      · simp [delEntry_cons, h, List.erase_cons, Ne.symm h, ih]

theorem hasKey_iff_mem_keys (l : List (String × β)) (k : String) :
    hasKey l k = true ↔ k ∈ l.map Prod.fst := by
  induction l with
  | nil => simp [hasKey, getEntry]
  | cons p t ih =>
      by_cases h : p.1 = k
      · simp [hasKey_cons, h]
      · simp [hasKey_cons, h, Ne.symm h, ih]

theorem delEntry_of_not_key (l : List (String × β)) (k : String)
    (h : hasKey l k = false) : delEntry l k = l := by
  induction l with
  | nil => simp [delEntry]
  | cons p t ih =>
      rw [hasKey_cons] at h
      simp only [Bool.or_eq_false_iff, decide_eq_false_iff_not] at h
      simp [delEntry_cons, h.1, ih h.2]

theorem setEntry_of_not_key (l : List (String × β)) (k : String) (v : β)
    (h : hasKey l k = false) : setEntry l k v = l ++ [(k, v)] := by
  induction l with
  | nil => simp [setEntry]
  | cons p t ih =>
      rw [hasKey_cons] at h
      simp only [Bool.or_eq_false_iff, decide_eq_false_iff_not] at h
      simp [setEntry_cons, h.1, ih h.2]

theorem mem_setEntry {l : List (String × β)} {k : String} {v : β} {p}
    (h : p ∈ setEntry l k v) : p = (k, v) ∨ p ∈ l := by
  induction l with
  | nil => simpa [setEntry] using h
  | cons q t ih =>
      by_cases hq : q.1 = k
      · rw [setEntry] at h
        simp only [hq, if_pos rfl] at h
        rcases List.mem_cons.mp h with h | h
        · exact Or.inl h
        · exact Or.inr (List.mem_cons_of_mem _ h)
      · rw [setEntry] at h
        simp only [hq, if_neg hq] at h
        rcases List.mem_cons.mp h with h | h
        · exact Or.inr (by simp [h])
        · rcases ih h with h | h
          · exact Or.inl h
          · exact Or.inr (List.mem_cons_of_mem _ h)

theorem mem_delEntry {l : List (String × β)} {k : String} {p}
    (h : p ∈ delEntry l k) : p ∈ l := by
  induction l with
  | nil => simpa [delEntry] using h
  | cons q t ih =>
      by_cases hq : q.1 = k
      · rw [delEntry] at h
        simp only [hq, if_pos rfl] at h
        exact List.mem_cons_of_mem _ h
      · rw [delEntry] at h
        simp only [hq, if_neg hq] at h
        rcases List.mem_cons.mp h with h | h
        · simp [h]
        · exact List.mem_cons_of_mem _ (ih h)

theorem getEntry_objSpread_of_not_key (a : Meta) {b : Meta} {k : String}
    (h : k ∉ b.map Prod.fst) : getEntry (objSpread a b) k = getEntry a k := by
  induction b generalizing a with
  | nil => simp [objSpread]
  | cons q t ih =>
      simp only [List.map_cons, List.mem_cons] at h
      push_neg at h
      have step : objSpread a (q :: t) = objSpread (setEntry a q.1 q.2) t := by
        simp [objSpread]
      rw [step, ih (setEntry a q.1 q.2) h.2, getEntry_setEntry_ne _ _ h.1]

theorem getEntry_objSpread_of_key (a : Meta) {b : Meta} {k : String} {v : String}
    (hk : getEntry b k = some v) (hnd : (b.map Prod.fst).Nodup) :
    getEntry (objSpread a b) k = some v := by
  induction b generalizing a with
  | nil => simp [getEntry] at hk
  | cons q t ih =>
      have step : objSpread a (q :: t) = objSpread (setEntry a q.1 q.2) t := by
        simp [objSpread]
      simp only [List.map_cons, List.nodup_cons] at hnd
      by_cases hq : q.1 = k
      · subst hq
        rw [getEntry_cons] at hk
        simp only [if_true, eq_self_iff_true, if_pos, Option.some_inj] at hk
        rw [step, getEntry_objSpread_of_not_key _ hnd.1,
          getEntry_setEntry_self, hk]
      · rw [getEntry_cons, if_neg hq] at hk
        exact step ▸ ih (setEntry a q.1 q.2) hk hnd.2

end AssocLemmas

/-! ## `adjustDim` lemmas -/

theorem adjustDim_length {α : Type} [Zero α] (dim : ℕ) (v : List α) :
    (adjustDim dim v).length = dim := by
  unfold adjustDim
  by_cases h1 : v.length = dim
  · simpa [h1]
  · by_cases h2 : v.length < dim
    · simp [h1, h2]
      omega
    · simp [h1, h2]
      omega

/-! ## Store-operation inversion lemmas -/

section StoreLemmas

variable {α : Type} [Zero α]

theorem addVector_ok {s : Store α} {id : String} {vec : Option (List α)}
    {meta : Meta} {now : String} {s' : Store α}
    (h : Store.addVector s id vec meta now = .ok s') :
    id ≠ "" ∧ ∃ v, vec = some v ∧
      s' = { s with
        vectors := setEntry s.vectors id (adjustDim s.dimension v),
        metadata := setEntry s.metadata id (setEntry meta "addedAt" now) } := by
  unfold Store.addVector at h
  by_cases hc : id = "" ∨ vec.isNone = true
  · rw [if_pos hc] at h
    exact absurd h (by simp)
  · rw [if_neg hc] at h
    push_neg at hc
    obtain ⟨v, hv⟩ : ∃ v, vec = some v := by
      cases vec with
      | none => simp at hc
      | some v => exact ⟨v, rfl⟩
    subst hv
    simp only [Except.ok.injEq] at h
    exact ⟨hc.1, v, rfl, h.symm⟩

theorem addVector_succeeds {s : Store α} {id : String} (v : List α)
    (meta : Meta) (now : String) (hid : id ≠ "") :
    Store.addVector s id (some v) meta now =
      .ok { s with
        vectors := setEntry s.vectors id (adjustDim s.dimension v),
        metadata := setEntry s.metadata id (setEntry meta "addedAt" now) } := by
  unfold Store.addVector
  rw [if_neg (by simp [hid])]
  rfl

theorem updateVector_ok {s : Store α} {id : String} {v : List α}
    {meta : Meta} {now : String} {s' : Store α}
    (h : Store.updateVector s id v meta now = .ok s') :
    (hasKey s.vectors id = true ∧
      s' = { s with
        vectors := setEntry s.vectors id (adjustDim s.dimension v),
        metadata := setEntry s.metadata id
          (setEntry (objSpread ((getEntry s.metadata id).getD []) meta)
            "updatedAt" now) }) ∨
    (hasKey s.vectors id = false ∧
      Store.addVector s id (some v) meta now = .ok s') := by
  unfold Store.updateVector at h
  by_cases hk : hasKey s.vectors id
  · rw [if_pos hk] at h
    simp only [Except.ok.injEq] at h
    exact Or.inl ⟨hk, h.symm⟩
  · rw [if_neg hk] at h
    exact Or.inr ⟨by simpa using hk, h⟩

end StoreLemmas

section KeyLemmas

theorem hasKey_eq_of_keys_eq {β γ : Type} {l1 : List (String × β)}
    {l2 : List (String × γ)} (h : l1.map Prod.fst = l2.map Prod.fst)
    (k : String) : hasKey l1 k = hasKey l2 k := by
  by_cases h1 : hasKey l1 k = true
  · rw [h1]
    symm
    rw [hasKey_iff_mem_keys, ← h]
    exact (hasKey_iff_mem_keys _ _).mp h1
  · rw [Bool.not_eq_true] at h1
    rw [h1]
    symm
    rw [← Bool.not_eq_true, hasKey_iff_mem_keys, ← h,
      ← hasKey_iff_mem_keys, h1]
    simp

theorem reachable_keys_eq {α : Type} [Zero α] {s : Store α}
    (h : Reachable s) :
    s.vectors.map Prod.fst = s.metadata.map Prod.fst := by
  induction h with
  | fresh dimension topK => rfl
  | add hr heq ih =>
      obtain ⟨hid, v, hv, hs'⟩ := addVector_ok heq
      subst hs'
      simp only
      rw [keys_setEntry, keys_setEntry, hasKey_eq_of_keys_eq ih, ih]
  | update hr heq ih =>
      rcases updateVector_ok heq with ⟨hk, hs'⟩ | ⟨hk, hadd⟩
      · subst hs'
        simp only
        rw [keys_setEntry, keys_setEntry, hasKey_eq_of_keys_eq ih, ih]
      · obtain ⟨hid, v, hv, hs'⟩ := addVector_ok hadd
        subst hs'
        simp only
        rw [keys_setEntry, keys_setEntry, hasKey_eq_of_keys_eq ih, ih]
  | remove id hr ih =>
      simp only [Store.removeVector]
      rw [keys_delEntry, keys_delEntry, ih]
  | clearStep hr ih => rfl
  | loadSave hr heq ih =>
      simp only [Store.load, Except.ok.injEq] at heq
      subst heq
      simpa using ih

end KeyLemmas

/-! ## Claim theorems -/

/-- **C5** (confirmed): for every store state (in particular every state
reachable by `addVector`/`updateVector`/`removeVector`), `save()` followed
by `load()` on a fresh store with the same configured dimension reproduces
an equivalent store — literally the same vector and metadata association
lists, hence the same ID set, the same vectors exactly and the same
metadata; `load()` of an absent snapshot file keeps the fresh (empty) maps
instead of failing, and any other read/parse failure propagates. -/
theorem save_load_roundtrip {α : Type} :
    (∀ (s : Store α) (topK' : ℕ) (now : String),
      ∃ s', Store.load (freshStore s.dimension topK') (.content (s.save now))
          = .ok s'
        ∧ s'.vectors = s.vectors ∧ s'.metadata = s.metadata)
  ∧ (∀ dimension topK' : ℕ,
      Store.load (freshStore dimension topK' : Store α) .absent
        = .ok (freshStore dimension topK'))
  ∧ (∀ (t : Store α) (m : String), t.load (.failure m) = .error m) :=
  ⟨fun _ _ _ => ⟨_, rfl, rfl, rfl⟩, fun _ _ => rfl, fun _ _ => rfl⟩

/-- **C2** (confirmed): every vector held in the store has exactly the
configured dimension.  `addVector` and `updateVector` pad or truncate
before storing (so `getVector` right after an insert of any length returns
a vector of length exactly D), and the invariant `DimInv` is preserved by
`addVector`, `updateVector`, `removeVector`, `clear` and by `load()` of a
snapshot persisted by `save()` under the same configured dimension. -/
theorem dimension_invariant {α : Type} [Zero α] :
    (∀ (s : Store α) (id : String) (vec : Option (List α)) (meta : Meta)
        (now : String) (s' : Store α),
      Store.addVector s id vec meta now = .ok s' → DimInv s → DimInv s')
  ∧ (∀ (s : Store α) (id : String) (vec : List α) (meta : Meta)
        (now : String) (s' : Store α),
      Store.addVector s id (some vec) meta now = .ok s' →
        (Store.getVector s' id).map List.length = some s.dimension)
  ∧ (∀ (s : Store α) (id : String) (vec : List α) (meta : Meta)
        (now : String) (s' : Store α),
      Store.updateVector s id vec meta now = .ok s' → DimInv s → DimInv s')
  ∧ (∀ (s : Store α) (id : String),
      DimInv s → DimInv (Store.removeVector s id).2.1)
  ∧ (∀ s : Store α, DimInv s.clear)
  ∧ (∀ (s : Store α) (topK' : ℕ) (now : String) (s' : Store α),
      Store.load (freshStore s.dimension topK') (.content (s.save now))
          = .ok s' →
        DimInv s → DimInv s') := by
  have hadd : ∀ (s : Store α) (id : String) (vec : Option (List α))
      (meta : Meta) (now : String) (s' : Store α),
      Store.addVector s id vec meta now = .ok s' → DimInv s → DimInv s' := by
    intro s id vec meta now s' h hD
    obtain ⟨hid, v, hv, hs'⟩ := addVector_ok h
    subst hs'
    intro p hp
    rcases mem_setEntry hp with h1 | h1
    · subst h1
      simpa using adjustDim_length s.dimension v
    · exact hD p h1
  refine ⟨hadd, ?_, ?_, ?_, ?_, ?_⟩
  · intro s id vec meta now s' h
    obtain ⟨hid, v, hv, hs'⟩ := addVector_ok h
    simp only [Option.some.injEq] at hv
    subst hv
    subst hs'
    simp only [Store.getVector, getEntry_setEntry_self, Option.map_some]
    simpa using adjustDim_length s.dimension vec
  · intro s id vec meta now s' h hD
    rcases updateVector_ok h with ⟨hk, hs'⟩ | ⟨hk, h2⟩
    · subst hs'
      intro p hp
      rcases mem_setEntry hp with h1 | h1
      · subst h1
        simpa using adjustDim_length s.dimension vec
      · exact hD p h1
    · exact hadd _ _ _ _ _ _ h2 hD
  · intro s id hD p hp
    exact hD p (mem_delEntry hp)
  · intro s p hp
    simp [Store.clear] at hp
  · intro s topK' now s' h hD
    simp only [Store.load, Except.ok.injEq] at h
    subst h
    intro p hp
    exact hD p hp

/-- Witness for `dimension_invariant`: inserting a length-1 vector into a
dimension-3 store and reading it back yields a vector of length exactly 3. -/
theorem dimension_invariant_witness :
    ∃ s' : Store ℤ,
      Store.addVector (freshStore 3 5) "a" (some [7]) [] "t" = .ok s'
        ∧ (Store.getVector s' "a").map List.length = some 3 := by
  refine ⟨⟨[("a", [7, 0, 0])], [("a", [("addedAt", "t")])], 3, 5⟩, by decide, ?_⟩
  exact (dimension_invariant (α := ℤ)).2.1 (freshStore 3 5) "a" [7] [] "t" _
    (by decide)

/-- **C4** (amended, part of a correction): `addVector` fails with the
validation error exactly when `id` is missing/empty (falsy) or `vector` is
missing (`null`/`undefined`); in every other case — including an *empty*
vector array, which is truthy in JS — it stores the dimension-adjusted
vector and succeeds.  Failure happens before any state mutation, so the
in-memory store and the persisted snapshot are unchanged (the model returns
no new state on error and calls `save` only on the success path). -/
theorem addVector_validation {α : Type} [Zero α] (s : Store α) (id : String)
    (vec : Option (List α)) (meta : Meta) (now : String) :
    ((∃ e, Store.addVector s id vec meta now = .error e) ↔
      id = "" ∨ vec = none)
  ∧ (∀ v, id ≠ "" → vec = some v →
      ∃ s', Store.addVector s id vec meta now = .ok s'
        ∧ Store.getVector s' id = some (adjustDim s.dimension v)) := by
  constructor
  · constructor
    · rintro ⟨e, he⟩
      by_cases hc : id = "" ∨ vec.isNone = true
      · rcases hc with hc | hc
        · exact Or.inl hc
        · exact Or.inr (Option.isNone_iff_eq_none.mp hc)
      · rw [Store.addVector, if_neg hc] at he
        exact absurd he (by simp)
    · intro hc
      refine ⟨"ID and vector are required", ?_⟩
      rw [Store.addVector, if_pos ?_]
      rcases hc with hc | hc
      · exact Or.inl hc
      · exact Or.inr (by simp [hc])
  · intro v hid hv
    subst hv
    exact ⟨_, addVector_succeeds v meta now hid, by
      simp [Store.getVector, getEntry_setEntry_self]⟩

/-- Witness for `addVector_validation`: an empty id is rejected with the
validation error. -/
theorem addVector_validation_witness :
    ∃ e, Store.addVector (freshStore 3 5 : Store ℤ) "" (some [1]) [] "t"
      = .error e :=
  (addVector_validation (freshStore 3 5 : Store ℤ) "" (some [1]) [] "t").1.mpr
    (Or.inl rfl)

/-- Counterexample to **C4** as stated: an *empty* vector array is not
rejected — `!vector` is false for `[]` in JS — so `addVector(id, [])`
succeeds and stores a zero-padded vector, where the claim demands a
`ValidationError` whenever the vector is "missing or empty". -/
theorem addVector_empty_vector_accepted :
    Store.addVector (freshStore 3 5 : Store ℤ) "note1" (some []) [] "t"
      = .ok ⟨[("note1", [0, 0, 0])], [("note1", [("addedAt", "t")])], 3, 5⟩ := by
  decide

/-- Counterexample to **C3** as stated: `addVector` on an existing ID does
*not* merge metadata — it builds `\x7b ...meta, addedAt \x7d` from the supplied
metadata alone, so the previously stored key `"k"` is lost. -/
theorem addVector_metadata_replaced :
    Store.addVector
        (⟨[("a", [1, 2, 3])], [("a", [("k", "v1"), ("addedAt", "t0")])], 3, 5⟩ :
          Store ℤ)
        "a" (some [4, 5, 6]) [("j", "2")] "t1"
      = .ok ⟨[("a", [4, 5, 6])], [("a", [("j", "2"), ("addedAt", "t1")])], 3, 5⟩
    ∧ getEntry [("j", "2"), ("addedAt", "t1")] "k" = none := by
  decide

/-- **C3** (amended): `addVector` with an existing ID overwrites the stored
vector and *replaces* the metadata (the supplied metadata plus a fresh
`addedAt`; previously stored keys are dropped); it is `updateVector` that
merges, spreading the supplied metadata over the existing record so keys
not named in the update (and different from `updatedAt`) are retained while
supplied keys win; `addVector` keeps one record per entity ID. -/
theorem metadata_merge_semantics {α : Type} [Zero α] :
    (∀ (s : Store α) (id : String) (v : List α) (meta : Meta) (now : String)
        (s' : Store α),
      Store.addVector s id (some v) meta now = .ok s' →
        getEntry s'.metadata id = some (setEntry meta "addedAt" now)
        ∧ Store.getVector s' id = some (adjustDim s.dimension v))
  ∧ (∀ (s : Store α) (id : String) (v : List α) (meta : Meta) (now : String)
        (s' : Store α) (key val : String),
      hasKey s.vectors id = true →
      Store.updateVector s id v meta now = .ok s' →
      getEntry ((getEntry s.metadata id).getD []) key = some val →
      key ∉ meta.map Prod.fst → key ≠ "updatedAt" →
        getEntry ((getEntry s'.metadata id).getD []) key = some val)
  ∧ (∀ (s : Store α) (id : String) (v : List α) (meta : Meta) (now : String)
        (s' : Store α) (key val : String),
      hasKey s.vectors id = true →
      Store.updateVector s id v meta now = .ok s' →
      (meta.map Prod.fst).Nodup → getEntry meta key = some val →
      key ≠ "updatedAt" →
        getEntry ((getEntry s'.metadata id).getD []) key = some val)
  ∧ (∀ (s : Store α) (id : String) (vec : Option (List α)) (meta : Meta)
        (now : String) (s' : Store α),
      Store.addVector s id vec meta now = .ok s' →
        (s.vectors.map Prod.fst).Nodup → (s'.vectors.map Prod.fst).Nodup) := by
  refine ⟨?_, ?_, ?_, ?_⟩
  · intro s id v meta now s' h
    obtain ⟨hid, v', hv, hs'⟩ := addVector_ok h
    simp only [Option.some.injEq] at hv
    subst hv
    subst hs'
    simp [Store.getVector, getEntry_setEntry_self]
  · intro s id v meta now s' key val hk h hold hnotin hne
    rcases updateVector_ok h with ⟨_, hs'⟩ | ⟨hk', _⟩
    · subst hs'
      simp only [getEntry_setEntry_self, Option.getD_some]
      rw [getEntry_setEntry_ne _ _ hne, getEntry_objSpread_of_not_key _ hnotin]
      exact hold
    · rw [hk] at hk'
      exact absurd hk' (by simp)
  · intro s id v meta now s' key val hk h hnd hmeta hne
    rcases updateVector_ok h with ⟨_, hs'⟩ | ⟨hk', _⟩
    · subst hs'
      simp only [getEntry_setEntry_self, Option.getD_some]
      rw [getEntry_setEntry_ne _ _ hne]
      exact getEntry_objSpread_of_key _ hmeta hnd
    · rw [hk] at hk'
      exact absurd hk' (by simp)
  · intro s id vec meta now s' h hnd
    obtain ⟨hid, v, hv, hs'⟩ := addVector_ok h
    subst hs'
    simp only
    rw [keys_setEntry]
    by_cases hk : hasKey s.vectors id
    · rw [if_pos hk]
      exact hnd
    · rw [if_neg hk]
      have : id ∉ s.vectors.map Prod.fst := by
        rw [← hasKey_iff_mem_keys]
        simpa using hk
      simp [List.nodup_append, hnd, this]

/-- Witness for `metadata_merge_semantics`: `updateVector` on an existing
record retains the old metadata key `"k"` that the update does not name. -/
theorem metadata_merge_semantics_witness :
    getEntry ((getEntry
        ({ vectors := [("a", [2])],
           metadata := [("a", [("k", "v1"), ("j", "x"), ("updatedAt", "t1")])],
           dimension := 1, topK := 5 } : Store ℤ).metadata "a").getD []) "k"
      = some "v1" :=
  (metadata_merge_semantics (α := ℤ)).2.1
    ⟨[("a", [1])], [("a", [("k", "v1")])], 1, 5⟩ "a" [2] [("j", "x")] "t1"
    ⟨[("a", [2])], [("a", [("k", "v1"), ("j", "x"), ("updatedAt", "t1")])], 1, 5⟩
    "k" "v1" (by decide) (by decide) (by decide) (by decide) (by decide)

/-- **C9** (confirmed): `removeVector` deletes the record if present and
returns whether a deletion happened; the third component records whether
`save()` ran — it is `false` exactly when the ID was absent, in which case
the returned state is (by structure eta) the unchanged input state, so the
persisted snapshot (content and `savedAt`) is untouched. -/
theorem removeVector_spec {α : Type} [Zero α] (s : Store α) (id : String) :
    (hasKey s.vectors id = false → hasKey s.metadata id = false →
      Store.removeVector s id = (false, s, false))
  ∧ (hasKey s.vectors id = true →
      Store.removeVector s id =
        (true, { s with vectors := delEntry s.vectors id,
                        metadata := delEntry s.metadata id }, true)
      ∧ ((s.vectors.map Prod.fst).Nodup →
          hasKey (delEntry s.vectors id) id = false)) := by
  constructor
  · intro h1 h2
    simp only [Store.removeVector, h1,
      delEntry_of_not_key _ _ h1, delEntry_of_not_key _ _ h2]
  · intro h1
    refine ⟨by simp only [Store.removeVector, h1], ?_⟩
    intro hnd
    rw [← Bool.not_eq_true, hasKey_iff_mem_keys, keys_delEntry]
    exact hnd.not_mem_erase

/-- Witness for `removeVector_spec`: removing an absent ID returns `false`
and changes nothing, performing no save. -/
theorem removeVector_spec_witness :
    Store.removeVector (⟨[("a", [1])], [("a", [])], 1, 5⟩ : Store ℤ) "b"
      = (false, ⟨[("a", [1])], [("a", [])], 1, 5⟩, false) :=
  (removeVector_spec (⟨[("a", [1])], [("a", [])], 1, 5⟩ : Store ℤ) "b").1
    (by decide) (by decide)

/-- **C10** (confirmed): in every reachable store state the key list of the
vectors map equals the key list of the metadata map (so in particular the
key sets agree), and hence `search` finds a metadata entry for every record
it scores: `metadata.get(id)` is `some` whenever `vectors.has(id)`. -/
theorem vectors_metadata_keys_eq {α : Type} [Zero α] (s : Store α)
    (h : Reachable s) :
    s.vectors.map Prod.fst = s.metadata.map Prod.fst
    ∧ ∀ id, hasKey s.vectors id = true → (getEntry s.metadata id).isSome := by
  refine ⟨reachable_keys_eq h, fun id hid => ?_⟩
  have : hasKey s.metadata id = true := by
    rw [← hasKey_eq_of_keys_eq (reachable_keys_eq h) id]
    exact hid
  simpa [hasKey] using this

/-- Witness for `vectors_metadata_keys_eq`, at a state reached by one
`addVector` from a fresh store. -/
theorem vectors_metadata_keys_eq_witness :
    (⟨[("a", [7, 0, 0])], [("a", [("addedAt", "t")])], 3, 5⟩ : Store ℤ).vectors.map
        Prod.fst
      = (⟨[("a", [7, 0, 0])], [("a", [("addedAt", "t")])], 3, 5⟩ : Store ℤ).metadata.map
        Prod.fst :=
  (vectors_metadata_keys_eq _
    (@Reachable.add ℤ _ (freshStore 3 5) "a" (some [7]) [] "t"
      ⟨[("a", [7, 0, 0])], [("a", [("addedAt", "t")])], 3, 5⟩
      (Reachable.fresh 3 5) (by decide))).1

section ReindexLemmas

variable {α : Type} [Zero α]

theorem reindex_fold (embed : String → Except String (List α)) (now : String) :
    ∀ (notes : List String) (p e : ℕ) (s : Store α),
      (∀ id ∈ notes, id ≠ "") →
      (∀ id ∈ notes, hasKey s.vectors id = false) →
      notes.Nodup →
      (notes.foldl (reindexStep embed now) (p, e, s)).1
          = p + notes.countP (fun id => (embed id).isOk)
      ∧ (notes.foldl (reindexStep embed now) (p, e, s)).2.1
          = e + notes.countP (fun id => !(embed id).isOk)
      ∧ (notes.foldl (reindexStep embed now) (p, e, s)).2.2.vectors.map Prod.fst
          = s.vectors.map Prod.fst
            ++ notes.filter (fun id => (embed id).isOk) := by
  intro notes
  induction notes with
  | nil =>
      intro p e s _ _ _
      simp
  | cons id t ih =>
      intro p e s hids hfresh hnd
      have hid : id ≠ "" := hids id (by simp)
      have hfreshid : hasKey s.vectors id = false := hfresh id (by simp)
      have hmemid : id ∉ t := by
        simpa using (List.nodup_cons.mp hnd).1
      cases hemb : embed id with
      | ok emb =>
          have hstep : reindexStep embed now (p, e, s) id =
              (p + 1, e,
               { s with
                  vectors := setEntry s.vectors id (adjustDim s.dimension emb),
                  metadata :=
                    setEntry s.metadata id (setEntry [] "addedAt" now) }) := by
            simp [reindexStep, hemb, addVector_succeeds emb [] now hid]
          have hkeys2 :
              (setEntry s.vectors id (adjustDim s.dimension emb)).map Prod.fst
                = s.vectors.map Prod.fst ++ [id] := by
            rw [setEntry_of_not_key _ _ _ hfreshid]
            simp
          have hfresh2 : ∀ q ∈ t,
              hasKey (setEntry s.vectors id (adjustDim s.dimension emb)) q
                = false := by
            intro q hq
            rw [← Bool.not_eq_true, hasKey_iff_mem_keys, hkeys2]
            intro hmem
            rcases List.mem_append.mp hmem with hmem | hmem
            · have := (hasKey_iff_mem_keys s.vectors q).mpr hmem
              rw [hfresh q (by simp [hq])] at this
              exact Bool.noConfusion this
            · simp only [List.mem_singleton] at hmem
              exact hmemid (hmem ▸ hq)
          obtain ⟨h1, h2, h3⟩ :=
            ih (p + 1) e
              { s with
                  vectors := setEntry s.vectors id (adjustDim s.dimension emb),
                  metadata :=
                    setEntry s.metadata id (setEntry [] "addedAt" now) }
              (fun q hq => hids q (by simp [hq])) hfresh2
              (List.nodup_cons.mp hnd).2
          rw [List.foldl_cons, hstep]
          refine ⟨?_, ?_, ?_⟩
          · rw [h1, List.countP_cons]
            simp [hemb, Except.isOk, Except.toBool]
            omega
          · rw [h2, List.countP_cons]
            simp [hemb, Except.isOk, Except.toBool]
          · rw [h3]
            simp only [hkeys2]
            rw [List.append_assoc]
            congr 1
            rw [List.filter_cons]
            simp [hemb, Except.isOk, Except.toBool]
      | error msg =>
          have hstep : reindexStep embed now (p, e, s) id = (p, e + 1, s) := by
            simp [reindexStep, hemb]
          obtain ⟨h1, h2, h3⟩ :=
            ih p (e + 1) s (fun q hq => hids q (by simp [hq]))
              (fun q hq => hfresh q (by simp [hq])) (List.nodup_cons.mp hnd).2
          rw [List.foldl_cons, hstep]
          refine ⟨?_, ?_, ?_⟩
          · rw [h1, List.countP_cons]
            simp [hemb, Except.isOk, Except.toBool]
          · rw [h2, List.countP_cons]
            simp [hemb, Except.isOk, Except.toBool]
            omega
          · rw [h3]
            congr 1
            rw [List.filter_cons]
            simp [hemb, Except.isOk, Except.toBool]

end ReindexLemmas

/-- **C6** (confirmed): `reindexAll` catches each per-note failure, keeps
going, and reports `processed` = number of notes whose embedding succeeded
and `errors` = number that failed, with `processed + errors` equal to the
total note count; the store afterwards (cleared up front) contains exactly
the successfully processed records, in order. -/
theorem reindexAll_spec {α : Type} [Zero α]
    (embed : String → Except String (List α)) (notes : List String)
    (s : Store α) (now : String) (hne : notes ≠ []) (hnd : notes.Nodup)
    (hids : ∀ id ∈ notes, id ≠ "") :
    (reindexAll embed notes s now).1
        = notes.countP (fun id => (embed id).isOk)
  ∧ (reindexAll embed notes s now).2.1
        = notes.countP (fun id => !(embed id).isOk)
  ∧ (reindexAll embed notes s now).1 + (reindexAll embed notes s now).2.1
        = notes.length
  ∧ (reindexAll embed notes s now).2.2.vectors.map Prod.fst
        = notes.filter (fun id => (embed id).isOk) := by
  have hne' : notes.isEmpty = false := by
    simpa [List.isEmpty_iff] using hne
  have hunfold : reindexAll embed notes s now
      = notes.foldl (reindexStep embed now) (0, 0, s.clear) := by
    unfold reindexAll
    rw [hne']
    simp
  obtain ⟨h1, h2, h3⟩ :=
    reindex_fold embed now notes 0 0 s.clear hids
      (by intro id _; rfl) hnd
  have hcount : notes.countP (fun id => (embed id).isOk)
      + notes.countP (fun id => !(embed id).isOk) = notes.length := by
    have hcongr : notes.countP (fun id => !(embed id).isOk)
        = notes.countP (fun id => decide ¬((embed id).isOk = true)) := by
      apply List.countP_congr
      intro a _
      cases (embed a).isOk <;> simp
    rw [hcongr, ← List.length_eq_countP_add_countP (fun id => (embed id).isOk)]
  rw [hunfold]
  refine ⟨by simpa using h1, by simpa using h2, ?_, by simpa [Store.clear] using h3⟩
  rw [h1, h2]
  simpa using hcount


/-- The 25 note ids of the reindex scenario. -/
def demoNotes : List String :=
  ["n01", "n02", "n03", "n04", "n05", "n06", "n07", "n08", "n09", "n10",
   "n11", "n12", "n13", "n14", "n15", "n16", "n17", "n18", "n19", "n20",
   "n21", "n22", "n23", "n24", "n25"]

/-- An embedding stub that fails for exactly three of the 25 notes. -/
def demoEmbed (id : String) : Except String (List ℤ) :=
  if id = "n03" ∨ id = "n07" ∨ id = "n11" then .error "embedding failed"
  else .ok [1]

/-- Witness for `reindexAll_spec`: 25 notes with 3 embedding failures give
`processed = 22`, `errors = 3`, and exactly 22 records in the store. -/
theorem reindexAll_spec_witness :
    (reindexAll demoEmbed demoNotes (freshStore 1 5) "t").1 = 22
  ∧ (reindexAll demoEmbed demoNotes (freshStore 1 5) "t").2.1 = 3
  ∧ (reindexAll demoEmbed demoNotes (freshStore 1 5) "t").2.2.vectors.length
      = 22 := by
  obtain ⟨h1, h2, h3, h4⟩ :=
    reindexAll_spec demoEmbed demoNotes (freshStore 1 5) "t" (by decide)
      (by decide) (by decide)
  refine ⟨?_, ?_, ?_⟩
  · rw [h1]; decide
  · rw [h2]; decide
  · have hl := congrArg List.length h4
    rw [List.length_map] at hl
    rw [hl]; decide


/-! ## C8: `dotProduct` on normalized vectors versus `cosineSimilarity` -/

section CosineLemmas

variable {α : Type} [LinearOrderedField α]

theorem sumSq_nonneg (v : List α) : 0 ≤ sumSq v := by
  unfold sumSq
  apply List.sum_nonneg
  intro x hx
  simp only [List.mem_map] at hx
  obtain ⟨y, _, hy⟩ := hx
  exact hy ▸ mul_self_nonneg y

theorem dotProduct_map_div (a : List α) (x y : α) :
    ∀ b : List α, dotProduct (a.map (· / x)) (b.map (· / y))
      = dotProduct a b / (x * y) := by
  induction a with
  | nil => intro b; simp [dotProduct]
  | cons a0 t ih =>
      intro b
      cases b with
      | nil => simp [dotProduct]
      | cons b0 u =>
          simp only [List.map_cons, dotProduct, List.zipWith_cons_cons,
            List.sum_cons]
          have := ih u
          simp only [dotProduct] at this
          rw [this]
          ring

theorem pairProdSum_eq_dotProduct (a : List α) :
    ∀ b : List α, pairProdSum a b = dotProduct a b := by
  induction a with
  | nil => intro b; simp [pairProdSum, dotProduct]
  | cons a0 t ih =>
      intro b
      cases b with
      | nil => simp [pairProdSum, dotProduct]
      | cons b0 u =>
          simp only [pairProdSum, dotProduct, List.zip_cons_cons,
            List.map_cons, List.sum_cons, List.zipWith_cons_cons] at *
          rw [ih u]

theorem pairSqFstSum_eq_sumSq (a : List α) :
    ∀ b : List α, a.length = b.length → pairSqFstSum a b = sumSq a := by
  induction a with
  | nil => intro b _; simp [pairSqFstSum, sumSq]
  | cons a0 t ih =>
      intro b hlen
      cases b with
      | nil => simp at hlen
      | cons b0 u =>
          simp only [List.length_cons, Nat.succ.injEq] at hlen
          simp only [pairSqFstSum, sumSq, List.zip_cons_cons, List.map_cons,
            List.sum_cons] at *
          rw [ih u hlen]

theorem pairSqSndSum_eq_sumSq (a : List α) :
    ∀ b : List α, a.length = b.length → pairSqSndSum a b = sumSq b := by
  induction a with
  | nil =>
      intro b hlen
      cases b with
      | nil => simp [pairSqSndSum, sumSq]
      | cons b0 u => simp at hlen
  | cons a0 t ih =>
      intro b hlen
      cases b with
      | nil => simp at hlen
      | cons b0 u =>
          simp only [List.length_cons, Nat.succ.injEq] at hlen
          simp only [pairSqSndSum, sumSq, List.zip_cons_cons, List.map_cons,
            List.sum_cons] at *
          rw [ih u hlen]

end CosineLemmas

/-- **C8** (amended): for two vectors *of equal length*, each of nonzero
Euclidean magnitude, `dotProduct` of their unit-normalized forms equals
`cosineSimilarity` of the unnormalized vectors, exactly, in real
arithmetic. -/
theorem dot_normalized_eq_cosine (a b : List ℝ) (hlen : a.length = b.length)
    (ha : sumSq a ≠ 0) (hb : sumSq b ≠ 0) :
    dotProduct (normalizeVector Real.sqrt a) (normalizeVector Real.sqrt b)
      = cosineSimilarity Real.sqrt a b := by
  have hsa : Real.sqrt (sumSq a) ≠ 0 := by
    rw [Ne, Real.sqrt_eq_zero (sumSq_nonneg a)]
    exact ha
  have hsb : Real.sqrt (sumSq b) ≠ 0 := by
    rw [Ne, Real.sqrt_eq_zero (sumSq_nonneg b)]
    exact hb
  unfold normalizeVector cosineSimilarity
  rw [if_neg hsa, if_neg hsb, dotProduct_map_div,
    pairProdSum_eq_dotProduct, pairSqFstSum_eq_sumSq a b hlen,
    pairSqSndSum_eq_sumSq a b hlen,
    if_neg (by push_neg; exact ⟨hsa, hsb⟩)]

/-- Witness for `dot_normalized_eq_cosine` at `[3,4]` and `[0,1]`. -/
theorem dot_normalized_eq_cosine_witness :
    sumSq ([3, 4] : List ℝ) ≠ 0 ∧ sumSq ([0, 1] : List ℝ) ≠ 0
    ∧ dotProduct (normalizeVector Real.sqrt [3, 4])
        (normalizeVector Real.sqrt [0, 1])
      = cosineSimilarity Real.sqrt [3, 4] [0, 1] :=
  ⟨by norm_num [sumSq], by norm_num [sumSq],
    dot_normalized_eq_cosine [3, 4] [0, 1] rfl (by norm_num [sumSq])
      (by norm_num [sumSq])⟩

/-- Counterexample to **C8** as stated (no equal-length restriction): for
`a = [3,4]` and `b = [1]`, both of nonzero magnitude, `dotProduct` of the
normalized forms is `3/5` while `cosineSimilarity` — which truncates *both*
norms to the common length — returns `1`. -/
theorem dot_normalized_ne_cosine_unequal_lengths :
    sumSq ([3, 4] : List ℝ) ≠ 0 ∧ sumSq ([1] : List ℝ) ≠ 0
    ∧ dotProduct (normalizeVector Real.sqrt [3, 4])
        (normalizeVector Real.sqrt [1])
      ≠ cosineSimilarity Real.sqrt [3, 4] [1] := by
  have h25 : sumSq ([3, 4] : List ℝ) = 25 := by norm_num [sumSq]
  have h1 : sumSq ([1] : List ℝ) = 1 := by norm_num [sumSq]
  have hs25 : Real.sqrt 25 = 5 := by
    rw [show (25 : ℝ) = 5 ^ 2 by norm_num, Real.sqrt_sq]
    norm_num
  have h9 : pairSqFstSum ([3, 4] : List ℝ) [1] = 9 := by
    norm_num [pairSqFstSum]
  have h1' : pairSqSndSum ([3, 4] : List ℝ) [1] = 1 := by
    norm_num [pairSqSndSum]
  have hs9 : Real.sqrt 9 = 3 := by
    rw [show (9 : ℝ) = 3 ^ 2 by norm_num, Real.sqrt_sq]
    norm_num
  refine ⟨by rw [h25]; norm_num, by rw [h1]; norm_num, ?_⟩
  unfold normalizeVector cosineSimilarity
  rw [h25, h1, hs25, h9, h1', hs9, Real.sqrt_one]
  norm_num [dotProduct, pairProdSum]


/-! ## C1: stability of the sort and the `search` contract -/

section SortStability

theorem filter_orderedInsert {β : Type} (r : β → β → Prop) [DecidableRel r]
    (p : β → Bool) (hcompat : ∀ x y, p x = true → ¬ r x y → p y = false) :
    ∀ (x : β) (l : List β),
      (List.orderedInsert r x l).filter p
        = if p x then x :: l.filter p else l.filter p := by
  intro x l
  induction l with
  | nil => by_cases hx : p x <;> simp [List.orderedInsert, hx]
  | cons y t ih =>
      by_cases hr : r x y
      · rw [List.orderedInsert, if_pos hr]
        by_cases hx : p x <;> simp [List.filter_cons, hx]
      · rw [List.orderedInsert, if_neg hr]
        by_cases hx : p x
        · have hy : p y = false := hcompat x y hx hr
          rw [List.filter_cons, List.filter_cons]
          simp [hy, ih, hx]
        · rw [List.filter_cons, List.filter_cons, ih]
          simp [hx]

theorem filter_insertionSort {β : Type} (r : β → β → Prop) [DecidableRel r]
    (p : β → Bool) (hcompat : ∀ x y, p x = true → ¬ r x y → p y = false) :
    ∀ l : List β, (List.insertionSort r l).filter p = l.filter p := by
  intro l
  induction l with
  | nil => rfl
  | cons a t ih =>
      rw [List.insertionSort, filter_orderedInsert r p hcompat, ih,
        List.filter_cons]

end SortStability

theorem mem_searchCandidates {α : Type} [LinearOrderedField α] {sqrt : α → α}
    {s : Store α} {q : List α} {f : SearchFilter} {r : SearchResult α}
    (h : r ∈ searchCandidates sqrt s q f) :
    r.id ∉ f.excludeIds
    ∧ (∀ c, f.category = some c →
        (getEntry s.metadata r.id).bind (fun m => getEntry m "category")
          = some c)
    ∧ ∃ v, (r.id, v) ∈ s.vectors
        ∧ r.score = dotProduct (normalizeVector sqrt q)
            (normalizeVector sqrt v) := by
  unfold searchCandidates at h
  rw [List.mem_filterMap] at h
  obtain ⟨pv, hpv, heq⟩ := h
  by_cases hex : pv.1 ∈ f.excludeIds
  · rw [if_pos hex] at heq
    exact absurd heq (by simp)
  · rw [if_neg hex] at heq
    by_cases hkeep : keepByCategory s f pv.1
    · rw [if_pos hkeep, Option.some_inj] at heq
      subst heq
      refine ⟨hex, ?_, pv.2, by simpa using hpv, rfl⟩
      intro c hc
      unfold keepByCategory at hkeep
      rw [hc] at hkeep
      simpa using hkeep
    · rw [if_neg hkeep] at heq
      exact absurd heq (by simp)

/-- **C1** (amended): for every store state, non-empty query `q` and
requested `k ≥ 1`, `search` succeeds and returns at most `k` results,
sorted by descending score with ties kept in the store's original insertion
order (the per-score filtrations of the output are initial segments of the
candidate list, which follows map insertion order), never including an ID
in `filter.excludeIds` nor one whose metadata category mismatches a set
`filter.category`, each score being the dot product of the normalized query
with that record's normalized stored vector; `search` fails with the
validation error on an empty query.  (For `k = 0` — or `topK = null` — the
configured default `topK` is used instead; see the counterexample.) -/
theorem search_spec {α : Type} [LinearOrderedField α] (sqrt : α → α)
    (s : Store α) (q : List α) (k : ℕ) (f : SearchFilter) (hq : q ≠ [])
    (hk : k ≠ 0) :
    (∃ out, Store.search sqrt s q (some k) f = .ok out
      ∧ out.length ≤ k
      ∧ List.Sorted resOrder out
      ∧ (∀ r ∈ out, r.id ∉ f.excludeIds)
      ∧ (∀ r ∈ out, ∀ c, f.category = some c →
          (getEntry s.metadata r.id).bind (fun m => getEntry m "category")
            = some c)
      ∧ (∀ r ∈ out, ∃ v, (r.id, v) ∈ s.vectors
          ∧ r.score = dotProduct (normalizeVector sqrt q)
              (normalizeVector sqrt v))
      ∧ (∀ c : α, ∃ rest,
          (searchCandidates sqrt s q f).filter (fun r => r.score = c)
            = out.filter (fun r => r.score = c) ++ rest))
  ∧ (∀ (topK : Option ℕ) (f' : SearchFilter),
      Store.search sqrt s [] topK f' = .error "Query vector is required") := by
  constructor
  · have hkeff : effectiveK s (some k) = k := by simp [effectiveK, hk]
    have hmem : ∀ r ∈ (List.insertionSort resOrder
        (searchCandidates sqrt s q f)).take k,
        r ∈ searchCandidates sqrt s q f := by
      intro r hr
      exact (List.mem_insertionSort resOrder).mp (List.take_subset k _ hr)
    refine ⟨(List.insertionSort resOrder (searchCandidates sqrt s q f)).take k,
      ?_, ?_, ?_, ?_, ?_, ?_, ?_⟩
    · unfold Store.search
      rw [if_neg hq, hkeff]
    · exact List.length_take_le k _
    · exact List.Pairwise.sublist (List.take_sublist _ _)
        (List.sorted_insertionSort resOrder _)
    · intro r hr
      exact (mem_searchCandidates (hmem r hr)).1
    · intro r hr
      exact (mem_searchCandidates (hmem r hr)).2.1
    · intro r hr
      exact (mem_searchCandidates (hmem r hr)).2.2
    · intro c
      have hcompat : ∀ x y : SearchResult α,
          decide (x.score = c) = true → ¬ resOrder x y →
            decide (y.score = c) = false := by
        intro x y hx hxy
        simp only [decide_eq_true_eq] at hx
        simp only [decide_eq_false_iff_not]
        unfold resOrder at hxy
        push_neg at hxy
        intro hy
        rw [hx, hy] at hxy
        exact lt_irrefl c hxy
      refine ⟨(List.drop k (List.insertionSort resOrder
          (searchCandidates sqrt s q f))).filter (fun r => r.score = c), ?_⟩
      rw [← List.filter_append, List.take_append_drop,
        filter_insertionSort resOrder _ hcompat]
  · intro topK f'
    unfold Store.search
    rw [if_pos rfl]

/-- Witness for `search_spec` on a one-record store over `ℚ` (the
square-root stand-in is irrelevant to the structural conclusions). -/
theorem search_spec_witness :
    ∃ out, Store.search (fun x => x)
        (⟨[("a", [1])], [("a", [])], 1, 5⟩ : Store ℚ) [1] (some 1) ⟨[], none⟩
        = .ok out
      ∧ out.length ≤ 1 := by
  obtain ⟨⟨out, h1, h2, _⟩, _⟩ :=
    search_spec (fun x => x) (⟨[("a", [1])], [("a", [])], 1, 5⟩ : Store ℚ)
      [1] 1 ⟨[], none⟩ (by simp) (by simp)
  exact ⟨out, h1, h2⟩

/-- Counterexample to **C1** as stated: `const k = topK || this.topK` sends
a requested `topK = 0` to the configured default (here 5), so `search(q, 0)`
returns one result on a one-record store instead of at most `0`. -/
theorem search_topK_zero_not_bounded :
    Store.search (fun x => x) (⟨[("a", [1])], [("a", [])], 1, 5⟩ : Store ℚ)
        [1] (some 0) ⟨[], none⟩
      = .ok [⟨"a",
          dotProduct (normalizeVector (fun x => x) [1])
            (normalizeVector (fun x => x) [1]), []⟩]
    ∧ ¬ ([⟨"a",
          dotProduct (normalizeVector (fun x => x) [1])
            (normalizeVector (fun x => x) [1]), []⟩] :
        List (SearchResult ℚ)).length ≤ 0 := by
  exact ⟨rfl, by simp⟩


/-! ## C7: characterisation of the hybrid combine-and-rank core -/

section HybridLemmas

variable {α : Type} [LinearOrderedField α]

theorem hGet_append (l l2 : List (HybridEntry α)) (id : String) :
    hGet (l ++ l2) id = (hGet l id).or (hGet l2 id) := by
  unfold hGet
  exact List.find?_append

theorem hGet_mem {l : List (HybridEntry α)} {e : HybridEntry α}
    (hnd : (l.map (fun x => x.id)).Nodup) (he : e ∈ l) :
    hGet l e.id = some e := by
  induction l with
  | nil => simp at he
  | cons x t ih =>
      simp only [List.map_cons, List.nodup_cons] at hnd
      rcases List.mem_cons.mp he with he | he
      · subst he
        unfold hGet
        rw [List.find?_cons_of_pos _ (by simp)]
      · have hne : x.id ≠ e.id := by
          intro hx
          exact hnd.1 (hx ▸ (List.mem_map.mpr ⟨e, he, rfl⟩))
        unfold hGet
        rw [List.find?_cons_of_neg _ (by simpa using hne)]
        exact ih hnd.2 he

theorem hGet_kwUpdate_self (l : List (HybridEntry α)) (id : String) (sc : α) :
    hGet (kwUpdate l id sc) id =
      match hGet l id with
      | some e => some ⟨e.id, e.semanticScore, sc⟩
      | none => some ⟨id, 0, sc⟩ := by
  unfold kwUpdate
  cases hfind : hGet l id with
  | some e =>
      have hany : l.any (fun x => x.id = id) = true := by
        rw [List.any_eq_true]
        exact ⟨e, List.mem_of_find?_eq_some hfind,
          by simpa using List.find?_some hfind⟩
      rw [if_pos hany]
      unfold hGet at hfind ⊢
      rw [List.find?_map]
      have hcomp : ((fun e : HybridEntry α => decide (e.id = id)) ∘
          (fun x : HybridEntry α =>
            if x.id = id then ⟨x.id, x.semanticScore, sc⟩ else x))
          = fun e : HybridEntry α => decide (e.id = id) := by
        funext x
        by_cases hx : x.id = id <;> simp [hx]
      rw [hcomp, hfind]
      have : e.id = id := by simpa using List.find?_some hfind
      simp [this]
  | none =>
      have hany : l.any (fun x => x.id = id) = false := by
        rw [List.any_eq_false]
        intro x hx
        unfold hGet at hfind
        rw [List.find?_eq_none] at hfind
        exact hfind x hx
      rw [if_neg (by simp [hany])]
      rw [hGet_append, hfind]
      unfold hGet
      simp

theorem hGet_kwUpdate_ne (l : List (HybridEntry α)) {id id' : String} (sc : α)
    (h : id' ≠ id) : hGet (kwUpdate l id sc) id' = hGet l id' := by
  unfold kwUpdate
  by_cases hany : l.any (fun x => x.id = id) = true
  · rw [if_pos hany]
    unfold hGet
    rw [List.find?_map]
    have hcomp : ((fun e : HybridEntry α => decide (e.id = id')) ∘
        (fun x : HybridEntry α =>
          if x.id = id then ⟨x.id, x.semanticScore, sc⟩ else x))
        = fun e : HybridEntry α => decide (e.id = id') := by
      funext x
      by_cases hx : x.id = id <;> simp [hx]
    rw [hcomp]
    cases hfind : List.find? (fun e : HybridEntry α => decide (e.id = id')) l with
    | none => simp
    | some e =>
        have he : e.id = id' := by simpa using List.find?_some hfind
        have hfix : (if e.id = id
            then (⟨e.id, e.semanticScore, sc⟩ : HybridEntry α) else e) = e := by
          rw [if_neg]
          rw [he]
          exact h
        simp [hfix]
  · rw [if_neg hany]
    rw [hGet_append]
    have hnone : hGet [(⟨id, 0, sc⟩ : HybridEntry α)] id' = none := by
      simp [hGet, Ne.symm h]
    rw [hnone]
    cases hGet l id' <;> simp

theorem kwUpdate_ids_nodup {l : List (HybridEntry α)} (id : String) (sc : α)
    (hnd : (l.map (fun x => x.id)).Nodup) :
    ((kwUpdate l id sc).map (fun x => x.id)).Nodup := by
  unfold kwUpdate
  by_cases hany : l.any (fun x => x.id = id) = true
  · rw [if_pos hany]
    have : ((l.map fun x =>
        if x.id = id then (⟨x.id, x.semanticScore, sc⟩ : HybridEntry α) else x).map
          (fun x => x.id)) = l.map (fun x => x.id) := by
      rw [List.map_map]
      apply List.map_congr_left
      intro x _
      by_cases hx : x.id = id <;> simp [hx]
    rw [this]
    exact hnd
  · rw [if_neg hany]
    rw [Bool.not_eq_true, List.any_eq_false] at hany
    rw [List.map_append]
    simp only [List.map_cons, List.map_nil]
    rw [List.nodup_append]
    refine ⟨hnd, List.nodup_singleton _, ?_⟩
    intro a ha hb
    simp only [List.mem_singleton] at hb
    subst hb
    simp only [List.mem_map] at ha
    obtain ⟨y, hy, hyx⟩ := ha
    have : ¬ y.id = a := by simpa using hany y hy
    exact this hyx

end HybridLemmas


section HybridFoldLemmas

variable {α : Type} [LinearOrderedField α]

theorem foldl_mapSet_fresh (mk : ℕ × String → HybridEntry α)
    (hmk : ∀ p, (mk p).id = p.2) :
    ∀ (l : List (ℕ × String)) (acc : List (HybridEntry α)),
      (∀ p ∈ l, ∀ e ∈ acc, e.id ≠ p.2) →
      (l.map Prod.snd).Nodup →
      l.foldl (fun acc p => mapSet acc (mk p)) acc = acc ++ l.map mk := by
  intro l
  induction l with
  | nil =>
      intro acc _ _
      simp
  | cons p t ih =>
      intro acc hdisj hnd
      simp only [List.map_cons, List.nodup_cons] at hnd
      have hany : acc.any (fun x => x.id = (mk p).id) = false := by
        rw [List.any_eq_false]
        intro x hx
        rw [hmk]
        simpa using hdisj p (by simp) x hx
      rw [List.foldl_cons]
      have hstep : mapSet acc (mk p) = acc ++ [mk p] := by
        unfold mapSet
        rw [if_neg (by simp [hany])]
      rw [hstep, ih (acc ++ [mk p]) ?_ hnd.2]
      · simp
      · intro q hq e he
        rcases List.mem_append.mp he with he | he
        · exact hdisj q (by simp [hq]) e he
        · simp only [List.mem_singleton] at he
          subst he
          rw [hmk]
          intro hcontra
          exact hnd.1 (hcontra ▸ List.mem_map.mpr ⟨q, hq, rfl⟩)

theorem hybridSemPhase_eq (sem : List String) (w : α) (hsem : sem.Nodup) :
    hybridSemPhase sem w = sem.enum.map
      (fun p => ⟨p.2, (1 - (p.1 : α) / (sem.length : α)) * w, 0⟩) := by
  unfold hybridSemPhase
  exact (foldl_mapSet_fresh
      (fun p => ⟨p.2, (1 - (p.1 : α) / (sem.length : α)) * w, 0⟩)
      (fun p => rfl) sem.enum [] (by simp)
      (by rw [List.enum_map_snd]; exact hsem)).trans (List.nil_append _)

theorem foldl_kwUpdate_hGet (c : ℕ × String → α) :
    ∀ (l : List (ℕ × String)) (acc : List (HybridEntry α)),
      (l.map Prod.snd).Nodup →
      ∀ id, hGet (l.foldl (fun acc p => kwUpdate acc p.2 (c p)) acc) id =
        match l.find? (fun q => q.2 = id), hGet acc id with
        | some p, some e => some ⟨e.id, e.semanticScore, c p⟩
        | none, some e => some e
        | some p, none => some ⟨id, 0, c p⟩
        | none, none => none := by
  intro l
  induction l with
  | nil =>
      intro acc _ id
      cases h : hGet acc id <;> simp [h]
  | cons p t ih =>
      intro acc hnd id
      simp only [List.map_cons, List.nodup_cons] at hnd
      rw [List.foldl_cons]
      by_cases hid : p.2 = id
      · subst hid
        have hfind : (p :: t).find? (fun q => decide (q.2 = p.2)) = some p :=
          List.find?_cons_of_pos _ (by simp)
        have htfind : t.find? (fun q => decide (q.2 = p.2)) = none := by
          rw [List.find?_eq_none]
          intro q hq
          simp only [decide_eq_true_eq]
          intro hc
          exact hnd.1 (hc ▸ List.mem_map.mpr ⟨q, hq, rfl⟩)
        rw [ih _ hnd.2 p.2, htfind, hfind, hGet_kwUpdate_self]
        cases hacc : hGet acc p.2 <;> simp
      · have hfind : (p :: t).find? (fun q => decide (q.2 = id))
            = t.find? (fun q => decide (q.2 = id)) :=
          List.find?_cons_of_neg _ (by simpa using hid)
        rw [ih _ hnd.2 id, hGet_kwUpdate_ne _ _ (fun hh => hid hh.symm), hfind]

theorem foldl_kwUpdate_ids_nodup (c : ℕ × String → α) :
    ∀ (l : List (ℕ × String)) (acc : List (HybridEntry α)),
      (acc.map (fun x => x.id)).Nodup →
      (((l.foldl (fun acc p => kwUpdate acc p.2 (c p)) acc)).map
        (fun x => x.id)).Nodup := by
  intro l
  induction l with
  | nil =>
      intro acc h
      simpa using h
  | cons p t ih =>
      intro acc h
      rw [List.foldl_cons]
      exact ih _ (kwUpdate_ids_nodup _ _ h)

theorem hybridSemPhase_ids (sem : List String) (w : α) (hsem : sem.Nodup) :
    (hybridSemPhase sem w).map (fun x => x.id) = sem := by
  rw [hybridSemPhase_eq sem w hsem, List.map_map]
  exact List.enum_map_snd sem

theorem hGet_hybridSemPhase (sem : List String) (w : α) (hsem : sem.Nodup)
    (id : String) :
    hGet (hybridSemPhase sem w) id
      = (sem.enum.find? (fun q => decide (q.2 = id))).map
          (fun p => ⟨p.2, (1 - (p.1 : α) / (sem.length : α)) * w, 0⟩) := by
  rw [hybridSemPhase_eq sem w hsem]
  unfold hGet
  rw [List.find?_map]
  congr 1

end HybridFoldLemmas


section HybridMain

variable {α : Type} [LinearOrderedField α]

theorem hybrid_entry_scores (sem kw : List String) (w : α) (hsem : sem.Nodup)
    (hkw : kw.Nodup) {e : HybridEntry α}
    (he : e ∈ hybridKwPhase kw w (hybridSemPhase sem w)) :
    e.semanticScore + e.keywordScore
      = listContrib sem w e.id + listContrib kw (1 - w) e.id := by
  have hnodup : ((hybridKwPhase kw w (hybridSemPhase sem w)).map
      (fun x => x.id)).Nodup := by
    unfold hybridKwPhase
    exact foldl_kwUpdate_ids_nodup _ kw.enum _
      (by rw [hybridSemPhase_ids sem w hsem]; exact hsem)
  have hself := hGet_mem hnodup he
  unfold hybridKwPhase at hself
  rw [foldl_kwUpdate_hGet
      (fun p => (1 - (p.1 : α) / (kw.length : α)) * (1 - w)) kw.enum _
      (by rw [List.enum_map_snd]; exact hkw) e.id] at hself
  rw [hGet_hybridSemPhase sem w hsem e.id] at hself
  unfold listContrib
  cases hF2 : kw.enum.find? (fun q => q.2 = e.id) with
  | some p =>
      cases hF1 : sem.enum.find? (fun q => q.2 = e.id) with
      | some q =>
          rw [hF1, hF2] at hself
          simp only [Option.map_some'] at hself
          rw [Option.some_inj] at hself
          have h1 := congrArg HybridEntry.semanticScore hself
          have h2 := congrArg HybridEntry.keywordScore hself
          rw [← h1, ← h2]
      | none =>
          rw [hF1, hF2] at hself
          simp only [Option.map_none'] at hself
          rw [Option.some_inj] at hself
          have h1 := congrArg HybridEntry.semanticScore hself
          have h2 := congrArg HybridEntry.keywordScore hself
          rw [← h1, ← h2]
  | none =>
      cases hF1 : sem.enum.find? (fun q => q.2 = e.id) with
      | some q =>
          rw [hF1, hF2] at hself
          simp only [Option.map_some'] at hself
          rw [Option.some_inj] at hself
          have h1 := congrArg HybridEntry.semanticScore hself
          have h2 := congrArg HybridEntry.keywordScore hself
          rw [← h1, ← h2]
      | none =>
          rw [hF1, hF2] at hself
          simp only [Option.map_none'] at hself
          exact absurd hself (by simp)

end HybridMain

/-- **C7** (confirmed): the hybrid combine-and-rank core assigns each item
at position `i` of a ranked list of size `N` the normalized score
`1 - i/N`, scaled by `w` for the semantic list and `1 - w` for the lexical
list, sums the two contributions per ID (`listContrib` returns `0` for an
ID absent from a list), sorts descending by total (stably) and truncates to
the requested size; concretely, for semantic `[A,B,C]` and lexical `[B,D]`
with `w = 7/10` the final ranking is `[B,A,C,D]` — so `A` ranks above `D`
and `B` (present in both lists) ranks at the top, at or above every
single-list item. -/
theorem hybrid_ranking {α : Type} [LinearOrderedField α] (sem kw : List String)
    (w : α) (limit : ℕ) (hsem : sem.Nodup) (hkw : kw.Nodup) :
    ((hybridCombine sem kw w limit).length ≤ limit
      ∧ List.Sorted pairOrder (hybridCombine sem kw w limit)
      ∧ ∀ pr ∈ hybridCombine sem kw w limit,
          pr.2 = listContrib sem w pr.1 + listContrib kw (1 - w) pr.1)
  ∧ ((hybridCombine (α := ℚ) ["A", "B", "C"] ["B", "D"] (7/10) 10).map Prod.fst
      = ["B", "A", "C", "D"]) := by
  constructor
  · refine ⟨?_, ?_, ?_⟩
    · unfold hybridCombine
      exact List.length_take_le _ _
    · unfold hybridCombine
      exact List.Pairwise.sublist (List.take_sublist _ _)
        (List.sorted_insertionSort pairOrder _)
    · intro pr hpr
      unfold hybridCombine at hpr
      have hmem : pr ∈ (hybridKwPhase kw w (hybridSemPhase sem w)).map
          (fun e => (e.id, e.semanticScore + e.keywordScore)) :=
        (List.mem_insertionSort pairOrder).mp (List.take_subset _ _ hpr)
      rw [List.mem_map] at hmem
      obtain ⟨e, he, hpe⟩ := hmem
      subst hpe
      exact hybrid_entry_scores sem kw w hsem hkw he
  · norm_num +decide [hybridCombine, hybridSemPhase, hybridKwPhase, mapSet,
      kwUpdate, List.insertionSort, List.orderedInsert, pairOrder, List.foldl,
      List.enum, List.enumFrom]

/-- Witness for `hybrid_ranking` at the claim's concrete lists. -/
theorem hybrid_ranking_witness :
    (hybridCombine (α := ℚ) ["A", "B", "C"] ["B", "D"] (7/10) 10).length ≤ 10 :=
  ((hybrid_ranking ["A", "B", "C"] ["B", "D"] ((7 : ℚ)/10) 10 (by decide)
    (by decide)).1).1

end RAGNotes
